import Mathlib

/-!
# Shallow embedding of the AgisFL federated-learning core

This file embeds the federated aggregation and robustness engine of the
repository (files `fl_ids_core.py` and `backend/core/fl_engine.py`) and
proves the specification claims about it.

Modelling conventions:
* Python floats are modelled by `ℚ` where only field arithmetic occurs, and by
  `ℝ` where `numpy` square roots (Euclidean norms, standard deviations) occur.
* Python dicts with string keys are modelled by association lists
  `List (String × _)`; `d[k]` is `List.lookup`, insertion is first-occurrence
  replacement, and iteration order is list order (Python dicts preserve
  insertion order).
* Fallible operations (a `KeyError`, a `None` return) are modelled with
  `Option`.
-/

namespace AgisFL

/-! ## Numeric vectors (numpy 1-d arrays over the rationals) -/

/-- Scalar multiplication of a vector, `c * v` elementwise. -/
def vecScale (c : ℚ) (v : List ℚ) : List ℚ := v.map (fun x => c * x)

/-- Elementwise vector addition (vectors of equal length in all uses;
`numpy` would raise on a shape mismatch, `zipWith` truncates). -/
def vecAdd (a b : List ℚ) : List ℚ := List.zipWith (· + ·) a b

/-- Sum of a list of vectors (elementwise); `numpy`'s `np.sum(_, axis=0)`. -/
def vecSum : List (List ℚ) → List ℚ
  | [] => []
  | v :: t => t.foldl vecAdd v

/-- Elementwise mean of a list of vectors; `np.mean(_, axis=0)`. -/
def vecMean (vs : List (List ℚ)) : List ℚ :=
  vecScale (1 / (vs.length : ℚ)) (vecSum vs)

/-- Squared Euclidean norm of a vector; rational, hence executable. -/
def normSq (v : List ℚ) : ℚ := (v.map (fun x => x * x)).sum

/-- Euclidean norm (`np.linalg.norm`): the real square root of `normSq`. -/
noncomputable def euclNorm (v : List ℚ) : ℝ := Real.sqrt (normSq v)

/-- The function `np.mean` on a list of reals. -/
noncomputable def meanR (l : List ℝ) : ℝ := l.sum / l.length

/-- The function `np.std` on a list of reals (population standard deviation,
with `ddof = 0`). -/
noncomputable def stdR (l : List ℝ) : ℝ :=
  Real.sqrt (((l.map (fun x => (x - meanR l) ^ 2)).sum) / l.length)

/-! ## Data model of `fl_ids_core.py` -/

/-- The metadata keys that every aggregation loop in `fl_ids_core.py` skips:
`['training_samples', 'node_id', 'model_type']`. -/
def metaKeys : List String := ["training_samples", "node_id", "model_type"]

/-- The weight dictionary a node returns from `local_train`
(`FederatedLearningNode._get_model_weights`): named parameter-group vectors
plus the metadata entries.  The metadata entries `training_samples`,
`node_id`, `model_type` are modelled as structure fields; `params` holds the
parameter-group entries (`feature_importances`, `coefficients`, ...). -/
structure NodeWeights where
  params : List (String × List ℚ)
  training_samples : ℕ
  node_id : String
deriving DecidableEq

instance : Inhabited NodeWeights := ⟨⟨[], 0, ""⟩⟩

/-- The test `key in w` for a parameter-group key of a weight dictionary. -/
def hasKey (k : String) (w : NodeWeights) : Bool := (w.params.lookup k).isSome

/-- The vectors of all updates for one key (`[w[key] for w in weights_list]`);
the `getD []` is justified at every use site by an `all (hasKey k)` check. -/
def valuesOf (ws : List NodeWeights) (k : String) : List (List ℚ) :=
  ws.map (fun w => (w.params.lookup k).getD [])

/-- The Euclidean norms of all updates' vectors for one key
(the `magnitudes` list of `detect_byzantine_nodes`). -/
noncomputable def magsOf (ws : List NodeWeights) (k : String) : List ℝ :=
  (valuesOf ws k).map euclNorm

/-! ## `ByzantineFaultTolerance.trim_mean_aggregation` -/

/-- The call `np.argsort` on the norms of `n` vectors: the indices `0 .. n-1` sorted
ascending by the key `f`.  We sort by the squared norm, which induces the same
order as the Euclidean norm (`Real.sqrt` is monotone); `np.argsort` fixes no
particular tie order, so any norm-sorted permutation is a faithful model. -/
def argsortQ (f : ℕ → ℚ) (n : ℕ) : List ℕ :=
  (List.range n).insertionSort (fun i j => f i ≤ f j)

/-- The count `int(len(weights_list) * trim_ratio)`: Python truncation, which
for a non-negative ratio equals the floor. -/
def nTrim (n : ℕ) (r : ℚ) : ℕ := (Int.floor ((n : ℚ) * r)).toNat

/-- The body of the per-key loop of `trim_mean_aggregation`: `none` models
`continue`/skip, `some v` models `aggregated[key] = v`. -/
def trimKeyValue (ws : List NodeWeights) (n_trim : ℕ) (k : String) :
    Option (List ℚ) :=
  if k ∈ metaKeys then none
  else if ws.all (hasKey k) then
    let values := valuesOf ws k
    let sorted_indices := argsortQ (fun i => normSq (values.getD i [])) ws.length
    let trimmed_indices :=
      if 0 < n_trim then (sorted_indices.drop n_trim).take (ws.length - 2 * n_trim)
      else sorted_indices
    if trimmed_indices.isEmpty then none
    else some (vecMean (trimmed_indices.map (fun i => values.getD i [])))
  else none

/-- Embeds `ByzantineFaultTolerance.trim_mean_aggregation(weights_list, trim_ratio)`.
Iterates the first update's keys in order; the Python slice
`sorted_indices[n_trim:-n_trim]` is `(drop n_trim).take (len - 2*n_trim)`. -/
def trim_mean_aggregation (ws : List NodeWeights) (r : ℚ) :
    List (String × List ℚ) :=
  if ws.isEmpty then []
  else
    (ws.headI.params.map Prod.fst).filterMap
      (fun k => (trimKeyValue ws (nTrim ws.length r) k).map (fun v => (k, v)))

/-! ## `ByzantineFaultTolerance.detect_byzantine_nodes` -/

open Classical in
/-- The inner flagging loop of `detect_byzantine_nodes`:
`for i, mag in enumerate(magnitudes): if mag > threshold and i not in acc:
acc.append(i)`. -/
noncomputable def byzInner (mags : List ℝ) (threshold : ℝ) (acc : List ℕ) :
    List ℕ :=
  (List.range mags.length).foldl
    (fun a i => if mags.getD i 0 > threshold ∧ i ∉ a then a ++ [i] else a) acc

/-- Embeds `ByzantineFaultTolerance.detect_byzantine_nodes(weights_list)`: with fewer
than 3 updates returns `[]`; otherwise flags, for each non-metadata key of the
first update present in every update, the indices whose norm exceeds
`mean + 2 * std` of the norms.  (The source's redundant `if magnitudes:` check
is always true here: the preceding `all` check puts one magnitude per update
into the list.) -/
noncomputable def detect_byzantine_nodes (ws : List NodeWeights) : List ℕ :=
  if ws.length < 3 then []
  else
    (ws.headI.params.map Prod.fst).foldl
      (fun acc k =>
        if k ∈ metaKeys then acc
        else if ws.all (hasKey k) then
          byzInner (magsOf ws k) (meanR (magsOf ws k) + 2 * stdR (magsOf ws k)) acc
        else acc) []

/-! ## `FederatedLearningServer` -/

/-- A registered node, as the server observes it in one configuration:
its id, its trained flag, the prediction vector `node.predict(data)` it
produces on the ambient evaluation data, and the outcome of
`node.local_train()` (`none` models a `None` return — insufficient data or a
training error; a returned weight dict is always non-empty, so Python's
`if weights:` is `isSome`). -/
structure FLNode where
  node_id : String
  is_trained : Bool
  predictions : List ℕ
  train_result : Option NodeWeights
deriving DecidableEq

instance : Inhabited FLNode := ⟨⟨"", false, [], none⟩⟩

/-- One entry of `self.training_history` (`round_info` in
`start_training_round`); the wall-clock timestamp field is omitted. -/
structure RoundInfo where
  round : ℕ
  participating_nodes : ℕ
  total_samples : ℕ
deriving DecidableEq

instance : Inhabited RoundInfo := ⟨⟨0, 0, 0⟩⟩

/-- The dictionary `_aggregate_weights` returns: at most the two handled
parameter-group entries plus the metadata entries. -/
structure AggregatedWeights where
  params : List (String × List ℚ)
  round : ℕ
  total_samples : ℕ
  participating_nodes : ℕ
deriving DecidableEq

/-- The `FederatedLearningServer` state: the registry dict `self.nodes`
(insertion-ordered, keyed by node id), `self.global_model_weights`
(`none` models the initial empty dict), `self.round_number`,
`self.training_history`. -/
structure FLServer where
  nodes : List (String × FLNode)
  global_model_weights : Option AggregatedWeights
  round_number : ℕ
  training_history : List RoundInfo
deriving DecidableEq

/-- Embeds `FederatedLearningServer.__init__`. -/
def FLServer.init : FLServer := ⟨[], none, 0, []⟩

/-- Python dict assignment `d[k] = v`: replace the first binding of `k`
in place, else append. -/
def dictInsert (k : String) (v : FLNode) :
    List (String × FLNode) → List (String × FLNode)
  | [] => [(k, v)]
  | (k', v') :: t => if k' = k then (k, v) :: t else (k', v') :: dictInsert k v t

/-- Embeds `FederatedLearningServer.register_node(node)`:
`self.nodes[node.node_id] = node` — an unconditional dict assignment. -/
def register_node (s : FLServer) (n : FLNode) : FLServer :=
  { s with nodes := dictInsert n.node_id n s.nodes }

/-- The `node_weights` list collected by `start_training_round`: the
successful `local_train` results, in registry order. -/
def collectedWeights (s : FLServer) : List NodeWeights :=
  (s.nodes.map Prod.snd).filterMap FLNode.train_result

/-- Embeds `FederatedLearningServer._aggregate_weights(node_weights)` for a
non-empty list (the only caller guarantees non-emptiness; on `[]` the source
returns a bare empty dict).  Exactly two parameter-group keys are handled,
each under an `all(key in w for w in node_weights)` guard; every weight dict
carries `training_samples`, so the `w.get('training_samples', 1)` default
never fires and the total is the plain sum. -/
def aggregate_weights (round_number : ℕ) (nw : List NodeWeights) :
    AggregatedWeights :=
  let total : ℕ := (nw.map (·.training_samples)).sum
  let wavg : String → List ℚ := fun k =>
    vecSum (nw.map (fun w =>
      vecScale ((w.training_samples : ℚ) / (total : ℚ)) ((w.params.lookup k).getD [])))
  let fi : List (String × List ℚ) :=
    if nw.all (hasKey "feature_importances") then
      [("feature_importances", wavg "feature_importances")] else []
  let co : List (String × List ℚ) :=
    if nw.all (hasKey "coefficients") then
      [("coefficients", wavg "coefficients")] else []
  { params := fi ++ co
    round := round_number
    total_samples := total
    participating_nodes := nw.length }

/-- Embeds `FederatedLearningServer.start_training_round()`: increments the round
counter first, collects successful updates, and either fails (empty subset)
or aggregates, replaces the global state and appends a round record. -/
def start_training_round (s : FLServer) : Bool × FLServer :=
  let rn := s.round_number + 1
  let node_weights := collectedWeights s
  if node_weights.isEmpty then
    (false, { s with round_number := rn })
  else
    (true,
      { s with
        round_number := rn
        global_model_weights := some (aggregate_weights rn node_weights)
        training_history := s.training_history ++
          [{ round := rn
             participating_nodes := node_weights.length
             total_samples := (node_weights.map (·.training_samples)).sum }] })

/-- The prediction vectors collected by `get_global_predictions`: from each
trained node, its non-empty prediction list. -/
def collectedPreds (s : FLServer) : List (List ℕ) :=
  (s.nodes.map Prod.snd).filterMap
    (fun n => if n.is_trained ∧ ¬ n.predictions.isEmpty
              then some n.predictions else none)

/-- Embeds `FederatedLearningServer.get_global_predictions(data)`: majority vote per
column; `np.sum(votes) > len(votes) / 2` is a float comparison, modelled over
`ℚ`.  `predictions_array.shape[1]` is the common row length (the first row's
length; `np.array` requires equal lengths). -/
def get_global_predictions (s : FLServer) : List ℕ :=
  match collectedPreds s with
  | [] => []
  | p0 :: rest =>
    (List.range p0.length).map (fun i =>
      let votes : List ℕ := (p0 :: rest).map (fun p => p.getD i 0)
      if (((votes.sum : ℕ) : ℚ) > ((votes.length : ℕ) : ℚ) / 2) then 1 else 0)

/-! ### Coordinator operation traces (for the round-history claims) -/

/-- One inbound coordinator operation from the engine's external interface. -/
inductive FLOp where
  | register (n : FLNode)
  | runRound
deriving DecidableEq

/-- Apply one operation to the server state. -/
def applyOp (s : FLServer) : FLOp → FLServer
  | .register n => register_node s n
  | .runRound => (start_training_round s).2

/-- Run a sequence of operations from a state. -/
def runOps (s : FLServer) (ops : List FLOp) : FLServer := ops.foldl applyOp s

/-! ## Data model of `backend/core/fl_engine.py` -/

/-- A client update as returned by `FederatedClient.train`: parameter
dictionary (`state_dict`), sample count, reported accuracy (the `loss` field
is never read by the strategies and is omitted). -/
structure ClientUpdate where
  client_id : String
  parameters : List (String × List ℚ)
  num_samples : ℕ
  accuracy : ℚ
deriving DecidableEq

instance : Inhabited ClientUpdate := ⟨⟨"", [], 0, 0⟩⟩

/-- The dictionary a strategy's `aggregate` returns. -/
structure StrategyResult where
  parameters : List (String × List ℚ)
  num_samples : ℕ
  accuracy : ℚ
deriving DecidableEq

/-- A loop that applies a fallible step to each element and fails as soon as
one step fails (models a Python comprehension that can raise). -/
def mapOpt {α β : Type} (f : α → Option β) : List α → Option (List β)
  | [] => some []
  | a :: t =>
    match f a, mapOpt f t with
    | some b, some bs => some (b :: bs)
    | _, _ => none

/-- The per-key weighted sum of `FedAvgStrategy.aggregate`:
`sum(update['parameters'][key] * (update['num_samples'] / total_samples)
for update in client_updates)`.  A key lookup that would raise `KeyError`
makes the whole computation `none`. -/
def fedavgKeyValue (total : ℚ) (us : List ClientUpdate) (k : String) :
    Option (List ℚ) :=
  (mapOpt (fun (u : ClientUpdate) =>
    (u.parameters.lookup k).map (fun v => vecScale ((u.num_samples : ℚ) / total) v)) us).map
    vecSum

namespace FedAvgStrategy

/-- Embeds `FedAvgStrategy.aggregate(client_updates)`: iterates the keys of the
*first* update's parameters; `none` models the `KeyError` raised when such a
key is missing from a later update (on the empty list the source returns a
bare empty dict, which has no typed counterpart here). -/
def aggregate (us : List ClientUpdate) : Option StrategyResult :=
  if us.isEmpty then none
  else
    let total : ℕ := (us.map (·.num_samples)).sum
    (mapOpt
      (fun k => (fedavgKeyValue (total : ℚ) us k).map (fun v => (k, v)))
      (us.headI.parameters.map Prod.fst)).map
      (fun ps =>
        { parameters := ps
          num_samples := total
          accuracy := (us.map (·.accuracy)).sum / (us.length : ℚ) })

end FedAvgStrategy

namespace FedProxStrategy

/-- The default proximal coefficient: `def __init__(self, mu: float = 0.1)`. -/
def defaultMu : ℚ := 1 / 10

/-- Embeds `FedProxStrategy.aggregate(client_updates)` with proximal coefficient
`mu`: the FedAvg weighted sum per key, blended as
`weighted_sum * (1 - mu) + client_updates[0]['parameters'][key] * mu`. -/
def aggregate (mu : ℚ) (us : List ClientUpdate) : Option StrategyResult :=
  if us.isEmpty then none
  else
    let total : ℕ := (us.map (·.num_samples)).sum
    (mapOpt
      (fun k =>
        ((fedavgKeyValue (total : ℚ) us k).bind (fun wsum =>
          (us.headI.parameters.lookup k).map (fun ref =>
            vecAdd (vecScale (1 - mu) wsum) (vecScale mu ref)))).map
          (fun v => (k, v)))
      (us.headI.parameters.map Prod.fst)).map
      (fun ps =>
        { parameters := ps
          num_samples := total
          accuracy := (us.map (·.accuracy)).sum / (us.length : ℚ) })

end FedProxStrategy

/-! ## Helper lemmas -/

theorem dictInsert_lookup (k : String) (v : FLNode) (l : List (String × FLNode)) :
    (dictInsert k v l).lookup k = some v := by
  induction l with
  | nil => simp [dictInsert, List.lookup]
  | cons hd t ih =>
    obtain ⟨k', v'⟩ := hd
    by_cases h : k' = k
    · simp [dictInsert, h, List.lookup]
    · have hb : (k == k') = false := by simp [Ne.symm h]
      simp [dictInsert, h, List.lookup, hb, ih]

theorem dictInsert_fresh (k : String) (v : FLNode) (l : List (String × FLNode))
    (h : k ∉ l.map Prod.fst) : dictInsert k v l = l ++ [(k, v)] := by
  induction l with
  | nil => simp [dictInsert]
  | cons hd t ih =>
    obtain ⟨k', v'⟩ := hd
    simp only [List.map_cons, List.mem_cons] at h
    push_neg at h
    simp [dictInsert, Ne.symm h.1, ih h.2]

theorem dictInsert_existing (k : String) (v : FLNode) (l : List (String × FLNode))
    (h : k ∈ l.map Prod.fst) :
    (dictInsert k v l).map Prod.fst = l.map Prod.fst := by
  induction l with
  | nil => simp at h
  | cons hd t ih =>
    obtain ⟨k', v'⟩ := hd
    by_cases hk : k' = k
    · simp [dictInsert, hk]
    · simp only [List.map_cons, List.mem_cons] at h
      rcases h with h | h
      · exact absurd h.symm hk
      · simp [dictInsert, hk, ih h]

/-! ## Claim C1 -/

/-- Concrete inputs: a freshly initialised coordinator has zero registered
participants. -/
theorem C1_counterexample :
    (start_training_round FLServer.init).1 = false ∧
    (start_training_round FLServer.init).2 ≠ FLServer.init := by
  constructor
  · rfl
  · decide

/-- C1 (amended): when the set of successful participant updates is empty,
`start_training_round` returns `false`, leaves the global model state, the
round history and the registry unchanged — but it has already incremented the
round counter, so the coordinator state does change in that one field. -/
theorem C1_empty_round (s : FLServer) (h : collectedWeights s = []) :
    start_training_round s =
      (false, { s with round_number := s.round_number + 1 }) := by
  simp [start_training_round, h]

/-- Witness: the amended C1 statement at the freshly initialised server. -/
theorem C1_witness :
    collectedWeights FLServer.init = [] ∧
    start_training_round FLServer.init =
      (false, { FLServer.init with round_number := FLServer.init.round_number + 1 }) :=
  ⟨rfl, C1_empty_round FLServer.init rfl⟩

/-! ## Claim C9 -/

/-- Concrete inputs: registering a second node with the id `"x"` of an
already-registered node does not fail and does not retain the previous
participant — the registry changes to hold the new node. -/
theorem C9_counterexample :
    ((register_node
        (register_node FLServer.init ⟨"x", false, [], none⟩)
        ⟨"x", true, [], none⟩).nodes ≠
      (register_node FLServer.init ⟨"x", false, [], none⟩).nodes) ∧
    ((register_node
        (register_node FLServer.init ⟨"x", false, [], none⟩)
        ⟨"x", true, [], none⟩).nodes.lookup "x" = some ⟨"x", true, [], none⟩) := by
  constructor
  · decide
  · rfl

/-- C9 (amended): `register_node` never fails.  Registering a node whose id is
already present silently *replaces* the previous participant (the set of
registered ids is unchanged); registering a fresh id appends the node.  In
both cases the registry afterwards maps the id to the new node. -/
theorem C9_register_node (s : FLServer) (n : FLNode) :
    ((register_node s n).nodes.lookup n.node_id = some n) ∧
    (n.node_id ∉ s.nodes.map Prod.fst →
      (register_node s n).nodes = s.nodes ++ [(n.node_id, n)]) ∧
    (n.node_id ∈ s.nodes.map Prod.fst →
      (register_node s n).nodes.map Prod.fst = s.nodes.map Prod.fst) := by
  refine ⟨dictInsert_lookup _ _ _, fun h => ?_, fun h => ?_⟩
  · simpa [register_node] using dictInsert_fresh _ _ _ h
  · simpa [register_node] using dictInsert_existing _ _ _ h

/-- Witness: the amended C9 statement on a registry already holding the id. -/
theorem C9_witness :
    ("x" ∈ (register_node FLServer.init ⟨"x", false, [], none⟩).nodes.map Prod.fst) ∧
    ((register_node (register_node FLServer.init ⟨"x", false, [], none⟩)
        ⟨"x", true, [], none⟩).nodes.map Prod.fst =
      (register_node FLServer.init ⟨"x", false, [], none⟩).nodes.map Prod.fst) :=
  ⟨by decide,
    (C9_register_node (register_node FLServer.init ⟨"x", false, [], none⟩)
      ⟨"x", true, [], none⟩).2.2 (by decide)⟩

/-! ## Claim C10 -/

/-- C10: when trimming removes everything — `2 * int(N * trim_ratio) ≥ N` on
a non-empty update list — `trim_mean_aggregation` silently omits every
parameter-group key and returns the empty mapping; no error is raised. -/
theorem C10_trim_all (ws : List NodeWeights) (r : ℚ)
    (hne : ws ≠ []) (h : ws.length ≤ 2 * nTrim ws.length r) :
    trim_mean_aggregation ws r = [] := by
  have hlen : 0 < ws.length := List.length_pos.mpr hne
  have hn : 0 < nTrim ws.length r := by omega
  have hkey : ∀ k, trimKeyValue ws (nTrim ws.length r) k = none := by
    intro k
    unfold trimKeyValue
    by_cases hm : k ∈ metaKeys
    · simp [hm]
    · by_cases hall : ws.all (hasKey k)
      · have h2 : ws.length - 2 * nTrim ws.length r = 0 := by omega
        simp [hm, hall, hn, h2]
      · simp [hm, hall]
  simp [trim_mean_aggregation, hne, hkey]

/-- Four one-parameter updates for the C10 witness. -/
def wsFour : List NodeWeights :=
  [⟨[("feature_importances", [1])], 10, "a"⟩,
   ⟨[("feature_importances", [2])], 10, "b"⟩,
   ⟨[("feature_importances", [3])], 10, "c"⟩,
   ⟨[("feature_importances", [4])], 10, "d"⟩]

/-- Witness: four one-parameter updates with `trim_ratio = 0.5` — trimming
drops two from each end of four, so the aggregate is the empty mapping. -/
theorem C10_witness :
    wsFour ≠ [] ∧ wsFour.length ≤ 2 * nTrim wsFour.length (1 / 2) ∧
    trim_mean_aggregation wsFour (1 / 2) = [] :=
  ⟨by decide, by norm_num [wsFour, nTrim]; omega,
    C10_trim_all wsFour (1 / 2) (by decide) (by norm_num [wsFour, nTrim]; omega)⟩

/-! ## Lemmas about `mapOpt` over keyed option computations -/

/-- A successful association-list lookup means the key is listed. -/
theorem lookup_isSome_mem {α : Type} (l : List (String × α)) (k : String)
    (h : (l.lookup k).isSome) : k ∈ l.map Prod.fst := by
  induction l with
  | nil => simp [List.lookup] at h
  | cons p t ih =>
    obtain ⟨a, v⟩ := p
    by_cases hk : k = a
    · simp [hk]
    · have hb : (k == a) = false := by simp [hk]
      simp only [List.lookup, hb] at h
      simp [hk, ih h]

/-- If a per-key `mapOpt` over a key list succeeds, looking a listed key up in
the produced association list evaluates the per-key computation (entries are
keyed by construction, so the first hit carries `f k`). -/
theorem lookup_mapOpt_pairs {α : Type} (ks : List String) (f : String → Option α)
    (ps : List (String × α))
    (h : mapOpt (fun k => (f k).map (fun v => (k, v))) ks = some ps)
    (k : String) (hk : k ∈ ks) :
    ps.lookup k = f k := by
  induction ks generalizing ps with
  | nil => simp at hk
  | cons a t ih =>
    rw [mapOpt] at h
    cases hfa : f a with
    | none => rw [hfa] at h; simp at h
    | some va =>
      cases hrest : mapOpt (fun k => (f k).map (fun v => (k, v))) t with
      | none => rw [hfa, hrest] at h; simp at h
      | some pst =>
        rw [hfa, hrest] at h
        simp only [Option.map_some', Option.some.injEq] at h
        subst h
        by_cases hak : a = k
        · subst hak
          simp [List.lookup, hfa]
        · have hkt : k ∈ t := by
            rcases List.mem_cons.mp hk with h' | h'
            · exact absurd h'.symm hak
            · exact h'
          have hb : (k == a) = false := by
            simp [Ne.symm hak]
          simp only [List.lookup, hb]
          exact ih pst hrest hkt

/-- Unfolding the FedAvg per-key weighted sum when every lookup succeeds. -/
theorem fedavgKeyValue_eq (total : ℚ) (us : List ClientUpdate) (k : String)
    (vs : List (List ℚ))
    (h : mapOpt (fun u => u.parameters.lookup k) us = some vs) :
    fedavgKeyValue total us k =
      some (vecSum (List.zipWith
        (fun (u : ClientUpdate) v => vecScale ((u.num_samples : ℚ) / total) v)
        us vs)) := by
  have haux : ∀ (l : List ClientUpdate) (ws : List (List ℚ)),
      mapOpt (fun u => u.parameters.lookup k) l = some ws →
      mapOpt (fun (u : ClientUpdate) =>
          (u.parameters.lookup k).map
            (fun v => vecScale ((u.num_samples : ℚ) / total) v)) l =
        some (List.zipWith
          (fun (u : ClientUpdate) v => vecScale ((u.num_samples : ℚ) / total) v)
          l ws) := by
    intro l
    induction l with
    | nil =>
      intro ws hws
      simp only [mapOpt, Option.some.injEq] at hws
      subst hws
      rfl
    | cons u t ih =>
      intro ws hws
      rw [mapOpt] at hws
      cases hu : u.parameters.lookup k with
      | none => rw [hu] at hws; simp at hws
      | some v0 =>
        cases ht : mapOpt (fun u => u.parameters.lookup k) t with
        | none => rw [hu, ht] at hws; simp at hws
        | some wt =>
          rw [hu, ht] at hws
          simp only [Option.some.injEq] at hws
          subst hws
          rw [mapOpt, hu, ih wt ht]
          rfl
  unfold fedavgKeyValue
  rw [haux us vs h]
  rfl

/-! ## Claim C2 -/

/-- C2: for a non-empty update list on which `FedAvgStrategy.aggregate`
succeeds, the result's total sample count is the sum of the updates' counts,
its accuracy is the unweighted arithmetic mean of the reported accuracies,
and each aggregated parameter-group key maps to the sample-count-weighted sum
of the updates' vectors, each update weighted by
`num_samples / total_samples`. -/
theorem C2_fedavg (us : List ClientUpdate) (res : StrategyResult)
    (hne : us ≠ []) (hres : FedAvgStrategy.aggregate us = some res) :
    res.num_samples = (us.map (·.num_samples)).sum ∧
    res.accuracy = (us.map (·.accuracy)).sum / (us.length : ℚ) ∧
    ∀ k vs, mapOpt (fun u => u.parameters.lookup k) us = some vs →
      k ∈ us.headI.parameters.map Prod.fst →
      res.parameters.lookup k =
        some (vecSum (List.zipWith
          (fun (u : ClientUpdate) v =>
            vecScale ((u.num_samples : ℚ) / (((us.map (·.num_samples)).sum : ℕ) : ℚ)) v)
          us vs)) := by
  rw [FedAvgStrategy.aggregate, if_neg (by simpa using hne)] at hres
  obtain ⟨ps, hps, hmk⟩ := Option.map_eq_some'.mp hres
  subst hmk
  refine ⟨rfl, rfl, fun k vs hvs hkmem => ?_⟩
  have hl := lookup_mapOpt_pairs _ _ _ hps k hkmem
  rw [hl, fedavgKeyValue_eq _ us k vs hvs]

/-- Three client updates with sample counts 100/150/250 and accuracies
0.80/0.85/0.90, sharing the single parameter key `"layer"`. -/
def usThree : List ClientUpdate :=
  [⟨"c0", [("layer", [1])], 100, 4 / 5⟩,
   ⟨"c1", [("layer", [2])], 150, 17 / 20⟩,
   ⟨"c2", [("layer", [3])], 250, 9 / 10⟩]

/-- Witness for C2: on the 100/150/250 example the aggregate succeeds with
total 500, accuracy `0.85` (the unweighted mean), and the `"layer"` entry is
`100/500·1 + 150/500·2 + 250/500·3 = 2.3`. -/
theorem C2_witness :
    usThree ≠ [] ∧
    FedAvgStrategy.aggregate usThree =
      some ⟨[("layer", [23 / 10])], 500, 17 / 20⟩ ∧
    (⟨[("layer", [23 / 10])], 500, 17 / 20⟩ : StrategyResult).num_samples =
      (usThree.map (·.num_samples)).sum ∧
    (⟨[("layer", [23 / 10])], 500, 17 / 20⟩ : StrategyResult).accuracy =
      (usThree.map (·.accuracy)).sum / (usThree.length : ℚ) := by
  have hagg : FedAvgStrategy.aggregate usThree =
      some ⟨[("layer", [23 / 10])], 500, 17 / 20⟩ := by
    simp [FedAvgStrategy.aggregate, usThree, fedavgKeyValue, mapOpt,
      vecSum, vecAdd, vecScale, List.lookup]
    norm_num
  have h := C2_fedavg usThree ⟨[("layer", [23 / 10])], 500, 17 / 20⟩
    (by decide) hagg
  exact ⟨by decide, hagg, by simpa using h.1, h.2.1⟩

/-! ## Claim C4 -/

/-- Concrete inputs: two updates where the key `"a"` of the first update is
absent from the second.  `FedAvgStrategy.aggregate` raises (`none` models the
`KeyError` from `update['parameters'][key]`) instead of silently skipping the
key, refuting the claim that no error is raised and the key is merely
excluded. -/
theorem C4_counterexample :
    ([⟨"c0", [("a", [1])], 1, 1⟩, ⟨"c1", [], 1, 1⟩] : List ClientUpdate) ≠ [] ∧
    FedAvgStrategy.aggregate
      [⟨"c0", [("a", [1])], 1, 1⟩, ⟨"c1", [], 1, 1⟩] = none := by
  constructor
  · decide
  · decide

/-- C4 (amended): the "intersection of reported keys" policy is implemented
by `FederatedLearningServer._aggregate_weights`, not by
`FedAvgStrategy.aggregate`: in `_aggregate_weights` a handled parameter-group
key appears in the output exactly when it is present in every input update
(keys absent from at least one update are silently skipped, no error), and
only the two handled keys `feature_importances` and `coefficients` can appear.
(`FedAvgStrategy.aggregate` instead iterates only the first update's keys and
errors when such a key is missing from a later update.) -/
theorem C4_intersection (rn : ℕ) (ws : List NodeWeights) (hne : ws ≠ [])
    (k : String) :
    k ∈ (aggregate_weights rn ws).params.map Prod.fst ↔
      ((k = "feature_importances" ∨ k = "coefficients") ∧
        ∀ w ∈ ws, hasKey k w) := by
  have hmem : k ∈ (aggregate_weights rn ws).params.map Prod.fst ↔
      ((k = "feature_importances" ∧ ws.all (hasKey "feature_importances")) ∨
       (k = "coefficients" ∧ ws.all (hasKey "coefficients"))) := by
    unfold aggregate_weights
    by_cases hfi : ws.all (hasKey "feature_importances") <;>
      by_cases hco : ws.all (hasKey "coefficients") <;>
        simp [hfi, hco]
  rw [hmem]
  constructor
  · rintro (⟨rfl, h⟩ | ⟨rfl, h⟩)
    · exact ⟨Or.inl rfl, List.all_eq_true.mp h⟩
    · exact ⟨Or.inr rfl, List.all_eq_true.mp h⟩
  · rintro ⟨(rfl | rfl), hall⟩
    · exact Or.inl ⟨rfl, List.all_eq_true.mpr hall⟩
    · exact Or.inr ⟨rfl, List.all_eq_true.mpr hall⟩

/-- Witness for C4 (amended): one update holds both handled keys, the other
lacks `"coefficients"`; the aggregate keeps `"feature_importances"` and
silently drops `"coefficients"`. -/
theorem C4_witness :
    ([⟨[("feature_importances", [1]), ("coefficients", [2])], 10, "a"⟩,
      ⟨[("feature_importances", [3])], 30, "b"⟩] : List NodeWeights) ≠ [] ∧
    "feature_importances" ∈
      (aggregate_weights 1
        [⟨[("feature_importances", [1]), ("coefficients", [2])], 10, "a"⟩,
         ⟨[("feature_importances", [3])], 30, "b"⟩]).params.map Prod.fst ∧
    "coefficients" ∉
      (aggregate_weights 1
        [⟨[("feature_importances", [1]), ("coefficients", [2])], 10, "a"⟩,
         ⟨[("feature_importances", [3])], 30, "b"⟩]).params.map Prod.fst := by
  refine ⟨by decide, ?_, ?_⟩
  · exact (C4_intersection 1 _ (by decide) _).mpr (by decide)
  · intro hmem
    have := (C4_intersection 1 _ (by decide) _).mp hmem
    revert this
    decide

/-! ## Claim C7 -/

/-- C7: for a non-empty update list on which `FedProxStrategy.aggregate`
succeeds, each aggregated parameter-group key maps to
`(1 − μ) · weightedAverage + μ · reference`, where the weighted average is the
FedAvg sample-count-weighted sum and the reference is the first update's
vector for that key; the proximal coefficient defaults to `0.1`. -/
theorem C7_fedprox (mu : ℚ) (us : List ClientUpdate) (res : StrategyResult)
    (hne : us ≠ []) (hres : FedProxStrategy.aggregate mu us = some res) :
    FedProxStrategy.defaultMu = 1 / 10 ∧
    ∀ k vs ref, mapOpt (fun u => u.parameters.lookup k) us = some vs →
      us.headI.parameters.lookup k = some ref →
      res.parameters.lookup k =
        some (vecAdd
          (vecScale (1 - mu) (vecSum (List.zipWith
            (fun (u : ClientUpdate) v =>
              vecScale ((u.num_samples : ℚ) / (((us.map (·.num_samples)).sum : ℕ) : ℚ)) v)
            us vs)))
          (vecScale mu ref)) := by
  rw [FedProxStrategy.aggregate, if_neg (by simpa using hne)] at hres
  obtain ⟨ps, hps, hmk⟩ := Option.map_eq_some'.mp hres
  subst hmk
  refine ⟨rfl, fun k vs ref hvs href => ?_⟩
  have hkmem : k ∈ us.headI.parameters.map Prod.fst := by
    have hs : (us.headI.parameters.lookup k).isSome := by rw [href]; rfl
    exact lookup_isSome_mem _ _ hs
  have hl := lookup_mapOpt_pairs _ _ _ hps k hkmem
  rw [hl, fedavgKeyValue_eq _ us k vs hvs]
  simp [href]

/-- Witness for C7: the 100/150/250 example under the default `μ = 0.1`:
the `"layer"` entry becomes `0.9 · 2.3 + 0.1 · 1 = 2.17`. -/
theorem C7_witness :
    usThree ≠ [] ∧
    FedProxStrategy.aggregate FedProxStrategy.defaultMu usThree =
      some ⟨[("layer", [217 / 100])], 500, 17 / 20⟩ ∧
    (⟨[("layer", [217 / 100])], 500, 17 / 20⟩ : StrategyResult).parameters.lookup "layer" =
      some (vecAdd
        (vecScale (1 - FedProxStrategy.defaultMu) (vecSum (List.zipWith
          (fun (u : ClientUpdate) v =>
            vecScale ((u.num_samples : ℚ) / (((usThree.map (·.num_samples)).sum : ℕ) : ℚ)) v)
          usThree [[1], [2], [3]])))
        (vecScale FedProxStrategy.defaultMu [1])) := by
  have hagg : FedProxStrategy.aggregate FedProxStrategy.defaultMu usThree =
      some ⟨[("layer", [217 / 100])], 500, 17 / 20⟩ := by
    simp [FedProxStrategy.aggregate, FedProxStrategy.defaultMu, usThree,
      fedavgKeyValue, mapOpt, vecSum, vecAdd, vecScale, List.lookup]
    norm_num
  have h := C7_fedprox FedProxStrategy.defaultMu usThree
    ⟨[("layer", [217 / 100])], 500, 17 / 20⟩ (by decide) hagg
  exact ⟨by decide, hagg, h.2 "layer" [[1], [2], [3]] [1] (by decide) (by decide)⟩

/-! ## Claim C6 -/

/-- The sum of a 0/1-valued list counts its ones. -/
theorem sum_eq_count_one (l : List ℕ) (h : ∀ v ∈ l, v = 0 ∨ v = 1) :
    l.sum = l.count 1 := by
  induction l with
  | nil => rfl
  | cons v t ih =>
    have hv := h v (by simp)
    have ht := ih (fun x hx => h x (by simp [hx]))
    rcases hv with rfl | rfl <;> simp [List.count_cons, ht] <;> omega

/-- The rational comparison `sum > len / 2` is the strict-majority test. -/
theorem majority_rat_iff (c n : ℕ) :
    ((c : ℚ) > (n : ℚ) / 2) ↔ 2 * c > n := by
  rw [gt_iff_lt, div_lt_iff₀ (by norm_num : (0 : ℚ) < 2)]
  constructor
  · intro h
    exact_mod_cast (by linarith : (n : ℚ) < 2 * (c : ℚ))
  · intro h
    have h2 : (n : ℚ) < 2 * (c : ℚ) := by exact_mod_cast h
    linarith

/-- C6: the ensemble prediction is empty when no participant is trained, and
otherwise its value at each sample position is `1` exactly when strictly more
than half the collected per-participant votes at that position are `1`, and
`0` otherwise (so an exact tie yields `0`). -/
theorem C6_majority (s : FLServer) (m : ℕ)
    (hlen : ∀ p ∈ collectedPreds s, p.length = m)
    (hbin : ∀ p ∈ collectedPreds s, ∀ v ∈ p, v = 0 ∨ v = 1) :
    ((∀ nd ∈ s.nodes.map Prod.snd, nd.is_trained = false) →
      get_global_predictions s = []) ∧
    (collectedPreds s ≠ [] →
      (get_global_predictions s).length = m ∧
      ∀ i, i < m →
        (((get_global_predictions s).getD i 0 = 1 ↔
            2 * ((collectedPreds s).map (fun p => p.getD i 0)).count 1 >
              (collectedPreds s).length) ∧
         ((get_global_predictions s).getD i 0 = 0 ↔
            ¬ 2 * ((collectedPreds s).map (fun p => p.getD i 0)).count 1 >
              (collectedPreds s).length))) := by
  constructor
  · intro huntrained
    have hc : collectedPreds s = [] := by
      unfold collectedPreds
      rw [List.filterMap_eq_nil]
      intro n hn
      simp [huntrained n hn]
    unfold get_global_predictions
    rw [hc]
  · intro hne
    obtain ⟨p0, rest, hps⟩ := List.exists_cons_of_ne_nil hne
    have hm : p0.length = m := hlen p0 (by rw [hps]; simp)
    have hval : ∀ i, i < m →
        (get_global_predictions s).getD i 0 =
          if 2 * ((p0 :: rest).map (fun p => p.getD i 0)).count 1 >
              (p0 :: rest).length then 1 else 0 := by
      intro i hi
      unfold get_global_predictions
      rw [hps]
      have hilt : i < (List.range p0.length).length := by
        simpa [hm] using hi
      rw [List.getD_eq_getElem _ _ (by simpa using hilt)]
      simp only [List.getElem_map, List.getElem_range]
      have hsum : ((p0 :: rest).map (fun p => p.getD i 0)).sum =
          ((p0 :: rest).map (fun p => p.getD i 0)).count 1 := by
        apply sum_eq_count_one
        intro v hv
        obtain ⟨p, hp, hpv⟩ := List.mem_map.mp hv
        have hplen : p.length = m := hlen p (by rw [hps]; exact hp)
        have hmem : p.getD i 0 ∈ p := by
          rw [List.getD_eq_getElem _ _ (by omega)]
          exact List.getElem_mem _
        exact hpv ▸ hbin p (by rw [hps]; exact hp) _ hmem
      by_cases hmaj : 2 * ((p0 :: rest).map (fun p => p.getD i 0)).count 1 >
          (p0 :: rest).length
      · rw [if_pos hmaj, if_pos]
        rw [hsum, List.length_map]
        exact (majority_rat_iff _ _).mpr (by simpa using hmaj)
      · rw [if_neg hmaj, if_neg]
        intro hcon
        apply hmaj
        rw [hsum, List.length_map] at hcon
        have hlt := (majority_rat_iff _ _).mp hcon
        simpa using hlt
    refine ⟨?_, fun i hi => ?_⟩
    · unfold get_global_predictions
      rw [hps]
      simp [hm]
    · rw [hps, hval i hi]
      by_cases hmaj : 2 * ((p0 :: rest).map (fun p => p.getD i 0)).count 1 >
          (p0 :: rest).length
      · simp [hmaj]
      · simp [hmaj]

/-- Four trained participants voting `[1,1,0,0]` on a single sample. -/
def sTie : FLServer :=
  ⟨[("a", ⟨"a", true, [1], none⟩), ("b", ⟨"b", true, [1], none⟩),
    ("c", ⟨"c", true, [0], none⟩), ("d", ⟨"d", true, [0], none⟩)], none, 0, []⟩

/-- Four trained participants voting `[1,1,1,0]` on a single sample. -/
def sMaj : FLServer :=
  ⟨[("a", ⟨"a", true, [1], none⟩), ("b", ⟨"b", true, [1], none⟩),
    ("c", ⟨"c", true, [1], none⟩), ("d", ⟨"d", true, [0], none⟩)], none, 0, []⟩

/-- Witness: the claim's two vote patterns — `[1,1,0,0]` is a tie, resolved
to `0`; `[1,1,1,0]` is a strict majority, giving `1`. -/
theorem C6_witness :
    (get_global_predictions sTie).getD 0 0 = 0 ∧
    (get_global_predictions sMaj).getD 0 0 = 1 :=
  ⟨((((C6_majority sTie 1 (by decide) (by decide)).2 (by decide)).2 0
      (by decide)).2).mpr (by decide),
   ((((C6_majority sMaj 1 (by decide) (by decide)).2 (by decide)).2 0
      (by decide)).1).mpr (by decide)⟩

/-! ## Claim C3 -/

/-- Looking up a listed key in a keyed `filterMap` yields the per-key value
when the per-key computation succeeds on it. -/
theorem lookup_filterMap_pairs {α : Type} (ks : List String)
    (f : String → Option α) (k : String) (hk : k ∈ ks) (v : α)
    (hv : f k = some v) :
    (ks.filterMap (fun k' => (f k').map (fun w => (k', w)))).lookup k = some v := by
  induction ks with
  | nil => simp at hk
  | cons a t ih =>
    rcases List.mem_cons.mp hk with rfl | hkt
    · simp [List.filterMap_cons, hv, List.lookup]
    · by_cases hak : a = k
      · subst hak
        simp [List.filterMap_cons, hv, List.lookup]
      · cases hfa : f a with
        | none => simp [List.filterMap_cons, hfa, ih hkt]
        | some w =>
          have hb : (k == a) = false := by simp [Ne.symm hak]
          simp [List.filterMap_cons, hfa, List.lookup, hb, ih hkt]

/-- The length of an argsort is the number of indices sorted. -/
theorem argsortQ_length (f : ℕ → ℚ) (n : ℕ) : (argsortQ f n).length = n := by
  rw [argsortQ, List.length_insertionSort, List.length_range]

/-- Evaluating the per-key trimmed mean when the key survives every guard and
trimming leaves at least one update. -/
theorem trimKeyValue_eq (ws : List NodeWeights) (n : ℕ) (k : String)
    (hmeta : k ∉ metaKeys) (hall : ws.all (hasKey k))
    (hrem : 2 * n < ws.length) :
    trimKeyValue ws n k =
      some (vecMean
        ((((argsortQ (fun i => normSq ((valuesOf ws k).getD i [])) ws.length).drop
            n).take (ws.length - 2 * n)).map
          (fun i => (valuesOf ws k).getD i []))) := by
  have hσlen := argsortQ_length (fun i => normSq ((valuesOf ws k).getD i [])) ws.length
  unfold trimKeyValue
  rw [if_neg hmeta, if_pos hall]
  by_cases hn0 : 0 < n
  · simp only [if_pos hn0]
    have hlen :
        (((argsortQ (fun i => normSq ((valuesOf ws k).getD i [])) ws.length).drop
            n).take (ws.length - 2 * n)).length = ws.length - 2 * n := by
      rw [List.length_take, List.length_drop, hσlen]
      omega
    rw [if_neg]
    rw [List.isEmpty_iff]
    intro hcon
    rw [hcon] at hlen
    simp at hlen
    omega
  · simp only [if_neg hn0]
    have hn0' : n = 0 := by omega
    subst hn0'
    have htake :
        (argsortQ (fun i => normSq ((valuesOf ws k).getD i [])) ws.length).take
            (ws.length - 2 * 0) =
          argsortQ (fun i => normSq ((valuesOf ws k).getD i [])) ws.length := by
      rw [Nat.mul_zero, Nat.sub_zero]
      exact List.take_of_length_le (le_of_eq hσlen)
    rw [if_neg, List.drop_zero, htake]
    rw [List.isEmpty_iff]
    intro hcon
    rw [hcon] at hσlen
    simp at hσlen
    omega

/-- C3: per surviving parameter-group key, `trim_mean_aggregation` sorts the
updates by Euclidean norm, excludes exactly `⌊trim_ratio · N⌋` lowest-norm and
`⌊trim_ratio · N⌋` highest-norm updates (Python `int()` truncation equals the
floor for a non-negative ratio), and returns the unweighted elementwise mean
of the remaining vectors. -/
theorem C3_trim (ws : List NodeWeights) (r : ℚ) (k : String)
    (hne : ws ≠ []) (hr : 0 ≤ r) (hmeta : k ∉ metaKeys)
    (hk : ∀ w ∈ ws, hasKey k w)
    (hrem : 2 * nTrim ws.length r < ws.length) :
    (nTrim ws.length r : ℤ) = Int.floor ((ws.length : ℚ) * r) ∧
    ∃ σ : List ℕ,
      σ.Perm (List.range ws.length) ∧
      σ.Sorted (fun i j =>
        euclNorm ((valuesOf ws k).getD i []) ≤
          euclNorm ((valuesOf ws k).getD j [])) ∧
      (trim_mean_aggregation ws r).lookup k =
        some (vecMean
          (((σ.drop (nTrim ws.length r)).take
              (ws.length - 2 * nTrim ws.length r)).map
            (fun i => (valuesOf ws k).getD i []))) := by
  obtain ⟨w0, t, rfl⟩ := List.exists_cons_of_ne_nil hne
  refine ⟨Int.toNat_of_nonneg (Int.floor_nonneg.mpr (by positivity)),
    argsortQ (fun i => normSq ((valuesOf (w0 :: t) k).getD i [])) (w0 :: t).length,
    List.perm_insertionSort _ _, ?_, ?_⟩
  · have hs : (argsortQ (fun i => normSq ((valuesOf (w0 :: t) k).getD i []))
        (w0 :: t).length).Sorted
          (fun i j => normSq ((valuesOf (w0 :: t) k).getD i []) ≤
            normSq ((valuesOf (w0 :: t) k).getD j [])) := by
      haveI : IsTotal ℕ (fun i j => normSq ((valuesOf (w0 :: t) k).getD i []) ≤
          normSq ((valuesOf (w0 :: t) k).getD j [])) :=
        ⟨fun a b => le_total _ _⟩
      haveI : IsTrans ℕ (fun i j => normSq ((valuesOf (w0 :: t) k).getD i []) ≤
          normSq ((valuesOf (w0 :: t) k).getD j [])) :=
        ⟨fun a b c hab hbc => le_trans hab hbc⟩
      exact List.sorted_insertionSort _ _
    refine hs.imp ?_
    intro a b hab
    simp only [euclNorm]
    exact Real.sqrt_le_sqrt (by exact_mod_cast hab)
  · have hkmem : k ∈ w0.params.map Prod.fst :=
      lookup_isSome_mem _ _ (hk w0 (List.mem_cons_self _ _))
    rw [trim_mean_aggregation, if_neg (by simp)]
    exact lookup_filterMap_pairs _ _ k (by simpa using hkmem) _
      (trimKeyValue_eq (w0 :: t) (nTrim (w0 :: t).length r) k hmeta
        (List.all_eq_true.mpr hk) hrem)

/-- Five one-parameter updates with distinct norms for the C3 witness. -/
def wsFive : List NodeWeights :=
  [⟨[("feature_importances", [3])], 10, "a"⟩,
   ⟨[("feature_importances", [1])], 10, "b"⟩,
   ⟨[("feature_importances", [5])], 10, "c"⟩,
   ⟨[("feature_importances", [2])], 10, "d"⟩,
   ⟨[("feature_importances", [4])], 10, "e"⟩]

/-- Witness: with `N = 5` and `trim_ratio = 0.2` exactly
`⌊5 · 0.2⌋ = 1` update is trimmed from each end. -/
theorem C3_witness :
    wsFive ≠ [] ∧ (0 : ℚ) ≤ 1 / 5 ∧
    "feature_importances" ∉ metaKeys ∧
    (∀ w ∈ wsFive, hasKey "feature_importances" w) ∧
    2 * nTrim wsFive.length (1 / 5) < wsFive.length ∧
    nTrim wsFive.length (1 / 5) = 1 ∧
    ((nTrim wsFive.length (1 / 5) : ℤ) =
        Int.floor ((wsFive.length : ℚ) * (1 / 5)) ∧
      ∃ σ : List ℕ,
        σ.Perm (List.range wsFive.length) ∧
        σ.Sorted (fun i j =>
          euclNorm ((valuesOf wsFive "feature_importances").getD i []) ≤
            euclNorm ((valuesOf wsFive "feature_importances").getD j [])) ∧
        (trim_mean_aggregation wsFive (1 / 5)).lookup "feature_importances" =
          some (vecMean
            (((σ.drop (nTrim wsFive.length (1 / 5))).take
                (wsFive.length - 2 * nTrim wsFive.length (1 / 5))).map
              (fun i => (valuesOf wsFive "feature_importances").getD i [])))) :=
  ⟨by decide, by norm_num, by decide, by decide,
   by norm_num [wsFive, nTrim],
   by norm_num [wsFive, nTrim],
   C3_trim wsFive (1 / 5) "feature_importances" (by decide) (by norm_num)
     (by decide) (by decide) (by norm_num [wsFive, nTrim])⟩

/-! ## Claim C5 -/

/-- Membership in the inner flagging loop: an index is present afterwards iff
it was already present or its magnitude exceeds the threshold. -/
theorem byzInner_mem (mags : List ℝ) (thr : ℝ) (acc : List ℕ) (j : ℕ) :
    j ∈ byzInner mags thr acc ↔
      j ∈ acc ∨ (j < mags.length ∧ mags.getD j 0 > thr) := by
  have key : ∀ (l : List ℕ) (acc : List ℕ),
      j ∈ l.foldl
          (fun a i => if mags.getD i 0 > thr ∧ i ∉ a then a ++ [i] else a) acc ↔
        j ∈ acc ∨ (j ∈ l ∧ mags.getD j 0 > thr) := by
    intro l
    induction l with
    | nil => intro acc; simp
    | cons i t ih =>
      intro acc
      rw [List.foldl_cons, ih]
      by_cases hc : mags.getD i 0 > thr ∧ i ∉ acc
      · rw [if_pos hc]
        constructor
        · rintro (hj | hj)
          · rcases List.mem_append.mp hj with h | h
            · exact Or.inl h
            · have hji : j = i := by simpa using h
              subst hji
              exact Or.inr ⟨by simp, hc.1⟩
          · exact Or.inr ⟨by simp [hj.1], hj.2⟩
        · rintro (hj | ⟨hjl, hmag⟩)
          · exact Or.inl (List.mem_append.mpr (Or.inl hj))
          · rcases List.mem_cons.mp hjl with rfl | hjt
            · exact Or.inl (List.mem_append.mpr (Or.inr (by simp)))
            · exact Or.inr ⟨hjt, hmag⟩
      · rw [if_neg hc]
        constructor
        · rintro (hj | hj)
          · exact Or.inl hj
          · exact Or.inr ⟨by simp [hj.1], hj.2⟩
        · rintro (hj | ⟨hjl, hmag⟩)
          · exact Or.inl hj
          · rcases List.mem_cons.mp hjl with rfl | hjt
            · rw [not_and_or] at hc
              rcases hc with h | h
              · exact absurd hmag h
              · exact Or.inl (not_not.mp h)
            · exact Or.inr ⟨hjt, hmag⟩
  rw [byzInner, key]
  simp [List.mem_range]

/-- Membership after the per-key outer loop of `detect_byzantine_nodes`. -/
theorem detectOuter_mem (ws : List NodeWeights) (ks : List String)
    (acc : List ℕ) (j : ℕ) :
    j ∈ ks.foldl
        (fun acc k =>
          if k ∈ metaKeys then acc
          else if ws.all (hasKey k) then
            byzInner (magsOf ws k) (meanR (magsOf ws k) + 2 * stdR (magsOf ws k)) acc
          else acc) acc ↔
      j ∈ acc ∨ ∃ k ∈ ks, k ∉ metaKeys ∧ ws.all (hasKey k) ∧
        j < (magsOf ws k).length ∧
        (magsOf ws k).getD j 0 > meanR (magsOf ws k) + 2 * stdR (magsOf ws k) := by
  induction ks generalizing acc with
  | nil => simp
  | cons a t ih =>
    rw [List.foldl_cons, ih]
    by_cases hm : a ∈ metaKeys
    · rw [if_pos hm]
      constructor
      · rintro (hj | ⟨k, hkt, hrest⟩)
        · exact Or.inl hj
        · exact Or.inr ⟨k, by simp [hkt], hrest⟩
      · rintro (hj | ⟨k, hkat, hkm, hrest⟩)
        · exact Or.inl hj
        · rcases List.mem_cons.mp hkat with rfl | hkt
          · exact absurd hm hkm
          · exact Or.inr ⟨k, hkt, hkm, hrest⟩
    · rw [if_neg hm]
      by_cases hall : ws.all (hasKey a)
      · rw [if_pos hall, byzInner_mem]
        constructor
        · rintro ((hj | hj) | ⟨k, hkt, hrest⟩)
          · exact Or.inl hj
          · exact Or.inr ⟨a, by simp, hm, hall, hj⟩
          · exact Or.inr ⟨k, by simp [hkt], hrest⟩
        · rintro (hj | ⟨k, hkat, hkm, hka, hrest⟩)
          · exact Or.inl (Or.inl hj)
          · rcases List.mem_cons.mp hkat with rfl | hkt
            · exact Or.inl (Or.inr hrest)
            · exact Or.inr ⟨k, hkt, hkm, hka, hrest⟩
      · rw [if_neg hall]
        constructor
        · rintro (hj | ⟨k, hkt, hrest⟩)
          · exact Or.inl hj
          · exact Or.inr ⟨k, by simp [hkt], hrest⟩
        · rintro (hj | ⟨k, hkat, hkm, hka, hrest⟩)
          · exact Or.inl hj
          · rcases List.mem_cons.mp hkat with rfl | hkt
            · exact absurd hka hall
            · exact Or.inr ⟨k, hkt, hkm, hka, hrest⟩

/-- C5: with fewer than 3 updates the detector returns the empty list; with 3
or more, it flags exactly the indices whose Euclidean norm for some
parameter-group key common to all updates exceeds the mean plus two (population)
standard deviations of that key's norms across the update set. -/
theorem C5_detect (ws : List NodeWeights) (i : ℕ) :
    (ws.length < 3 → detect_byzantine_nodes ws = []) ∧
    (3 ≤ ws.length →
      (i ∈ detect_byzantine_nodes ws ↔
        i < ws.length ∧ ∃ k, k ∉ metaKeys ∧ (∀ w ∈ ws, hasKey k w) ∧
          (magsOf ws k).getD i 0 >
            meanR (magsOf ws k) + 2 * stdR (magsOf ws k))) := by
  constructor
  · intro h
    rw [detect_byzantine_nodes, if_pos h]
  · intro h3
    have hne : ws ≠ [] := by
      intro hcon
      rw [hcon] at h3
      simp at h3
    obtain ⟨w0, t, hw⟩ := List.exists_cons_of_ne_nil hne
    have hmlen : ∀ k, (magsOf ws k).length = ws.length := by
      intro k
      simp [magsOf, valuesOf]
    rw [detect_byzantine_nodes, if_neg (by omega)]
    rw [detectOuter_mem]
    simp only [List.not_mem_nil, false_or]
    constructor
    · rintro ⟨k, hkks, hkm, hall, hlt, hmag⟩
      exact ⟨by rw [← hmlen k]; exact hlt, k, hkm, List.all_eq_true.mp hall, hmag⟩
    · rintro ⟨hi, k, hkm, hall, hmag⟩
      refine ⟨k, ?_, hkm, List.all_eq_true.mpr hall, by rw [hmlen k]; exact hi, hmag⟩
      rw [hw]
      simp only [List.headI_cons]
      exact lookup_isSome_mem _ _ (hall w0 (by rw [hw]; exact List.mem_cons_self _ _))

/-- Two updates, for the fewer-than-3 branch of the detector. -/
def wsTwo : List NodeWeights :=
  [⟨[("feature_importances", [1])], 10, "a"⟩,
   ⟨[("feature_importances", [100])], 10, "b"⟩]

/-- Witness: on two updates — even wildly different ones — the detector
returns the empty outlier list. -/
theorem C5_witness :
    wsTwo.length < 3 ∧ detect_byzantine_nodes wsTwo = [] :=
  ⟨by decide, (C5_detect wsTwo 0).1 (by decide)⟩

/-! ## Claim C8 -/

/-- The history bookkeeping invariant maintained by every coordinator
operation: round numbers along the history strictly increase and never exceed
the round counter. -/
def HistInv (s : FLServer) : Prop :=
  (s.training_history.map RoundInfo.round).Chain' (· < ·) ∧
  ∀ rec ∈ s.training_history, rec.round ≤ s.round_number

theorem applyOp_histInv (s : FLServer) (op : FLOp) (h : HistInv s) :
    HistInv (applyOp s op) := by
  cases op with
  | register n =>
    exact h
  | runRound =>
    show HistInv (start_training_round s).2
    unfold start_training_round
    by_cases hempty : (collectedWeights s).isEmpty
    · rw [if_pos hempty]
      exact ⟨h.1, fun rec hrec => Nat.le_succ_of_le (h.2 rec hrec)⟩
    · rw [if_neg hempty]
      refine ⟨?_, ?_⟩
      · rw [List.map_append, List.chain'_append]
        refine ⟨h.1, by simp, ?_⟩
        intro x hx y hy
        simp only [List.map_cons, List.map_nil, List.head?_cons,
          Option.mem_def, Option.some.injEq] at hy
        subst hy
        obtain ⟨hxe, hxl⟩ := List.mem_getLast?_eq_getLast hx
        have hxmem : x ∈ s.training_history.map RoundInfo.round := by
          rw [hxl]
          exact List.getLast_mem _
        obtain ⟨rec, hrec, hrx⟩ := List.mem_map.mp hxmem
        have := h.2 rec hrec
        omega
      · intro rec hrec
        rcases List.mem_append.mp hrec with hrec | hrec
        · exact Nat.le_succ_of_le (h.2 rec hrec)
        · simp only [List.mem_singleton] at hrec
          subst hrec
          exact le_refl _

/-- C8 (amended): round history is append-only (every coordinator operation
extends it), its round numbers strictly increase — though not necessarily
consecutively, because a failed round also consumes a round number — and a
successful round appends exactly one record whose `total_samples` is the sum
of the sample counts of exactly the updates handed to aggregation. -/
theorem C8_history (ops : List FLOp) :
    (∀ (s : FLServer) (op : FLOp),
      s.training_history <+: (applyOp s op).training_history) ∧
    ((runOps FLServer.init ops).training_history.map RoundInfo.round).Chain'
      (· < ·) ∧
    (∀ s : FLServer, collectedWeights s ≠ [] →
      (start_training_round s).2.training_history =
        s.training_history ++
          [⟨s.round_number + 1, (collectedWeights s).length,
            ((collectedWeights s).map (·.training_samples)).sum⟩]) := by
  refine ⟨?_, ?_, ?_⟩
  · intro s op
    cases op with
    | register n => exact List.prefix_refl _
    | runRound =>
      show s.training_history <+: (start_training_round s).2.training_history
      unfold start_training_round
      by_cases hempty : (collectedWeights s).isEmpty
      · rw [if_pos hempty]
      · rw [if_neg hempty]
        exact List.prefix_append _ _
  · have step : ∀ (l : List FLOp) (s : FLServer), HistInv s → HistInv (runOps s l) := by
      intro l
      induction l with
      | nil => intro s h; exact h
      | cons op t ih =>
        intro s h
        exact ih _ (applyOp_histInv s op h)
    exact (step ops FLServer.init ⟨by simp [FLServer.init], by simp [FLServer.init]⟩).1
  · intro s hne
    unfold start_training_round
    rw [if_neg (by simpa [List.isEmpty_iff] using hne)]

/-- A node whose `local_train` succeeds with 10 samples and no parameter
groups. -/
def nGood : FLNode := ⟨"g", false, [], some ⟨[], 10, "g"⟩⟩

/-- Concrete inputs: a failed round (no registered nodes), then a
registration, then a successful round.  The single history record carries
round number 2, not 1 = index + 1, because the failed round consumed a round
number. -/
theorem C8_counterexample :
    ((runOps FLServer.init
        [FLOp.runRound, FLOp.register nGood, FLOp.runRound]).training_history.getD
      0 default).round ≠ 0 + 1 := by
  decide

/-- One registered node whose training succeeds. -/
def sGood : FLServer := ⟨[("g", nGood)], none, 0, []⟩

/-- Witness: the successful-round record of the amended C8 statement, on a
server with one trainable node. -/
theorem C8_witness :
    collectedWeights sGood ≠ [] ∧
    (start_training_round sGood).2.training_history =
      sGood.training_history ++
        [⟨sGood.round_number + 1, (collectedWeights sGood).length,
          ((collectedWeights sGood).map (·.training_samples)).sum⟩] :=
  ⟨by decide, (C8_history []).2.2 sGood (by decide)⟩

end AgisFL
